/-
  Verification of the error-matrix / report-assembly logic of pynnmap-report.

  The definitions below are a shallow embedding of:
  * `CategoricalAccuracyFormatter.build_error_matrix` and
    `AttributeAccuracyFormatter.build_error_matrix`
    (pynnmap_report/report/categorical_accuracy_formatter.py and
    attribute_accuracy_formatter.py).  Both share the same numeric core;
    the continuous (attribute) variant is the special case of an empty
    fuzzy-class list.  The count matrix produced by `pd.crosstab` is taken
    as the input (a list of rows of natural-number counts); the label /
    layout plumbing around the numbers is not modelled.
  * `SpeciesAccuracyFormatter.run_formatter`'s per-species row construction
    (species_accuracy_formatter.py).
  * `LemmaAccuracyReport.create_accuracy_report`'s story assembly
    (lemma_accuracy_report.py).

  numpy float semantics needed here: the guarded divisions
  (`np.divide(..., out=zeros, where=denom != 0)` and
  `np.where(denom, num / denom * 100.0, 0.0)`) yield exact quotients where
  the denominator is nonzero and 0.0 elsewhere; the single unguarded
  division (`diag.sum() / row_sums.sum() * 100.0`) yields NaN on 0/0 and
  +inf on x/0 with x > 0 (a warning, not an exception).  All numerators and
  denominators are nonnegative integers, so quotients are exact rationals
  and NaN/inf arise only from a zero denominator; `NpFloat` captures this.
-/
import Mathlib

/-- Result of an unguarded numpy float division on nonnegative data:
either an exact rational value, NaN (from 0/0) or +inf (from x/0, x > 0). -/
inductive NpFloat where
  | val : ℚ → NpFloat
  | nan : NpFloat
  | inf : NpFloat
deriving DecidableEq, Repr

/-- Unguarded numpy division `num / denom` for nonnegative operands. -/
def npDiv (num denom : ℚ) : NpFloat :=
  if denom = 0 then (if num = 0 then .nan else .inf) else .val (num / denom)

/-- Multiply an `NpFloat` by a positive rational constant (`* 100.0`). -/
def npScale (x : NpFloat) (c : ℚ) : NpFloat :=
  match x with
  | .val q => .val (q * c)
  | .nan => .nan
  | .inf => .inf

/-- `np.where(denom, num / denom * 100.0, 0.0)` / the masked `np.divide`
followed by `* 100.0`: the guarded percent used throughout
`build_error_matrix` (lines 189, 191, 249-251 of
categorical_accuracy_formatter.py). -/
def calc_percent (num denom : ℚ) : ℚ :=
  if denom = 0 then 0 else num / denom * 100

/-- The count matrix: rows of counts, `M[i][j]` = count of observed class
`i` predicted as class `j`.  This is `err_matrix[:-1, :-1]` (`em_data`) of
the source, the `pd.crosstab` result without its margins. -/
abbrev CountMatrix := List (List ℕ)

/-- In-range read `M[i][j]` (indices known valid, as in the vectorised
numpy expressions). -/
def Mval (M : CountMatrix) (i j : ℕ) : ℕ := (M.getD i []).getD j 0

/-- Checked read `M[i][j]`: `none` models numpy's IndexError on an
out-of-range fancy index. -/
def cell? (M : CountMatrix) (i j : ℕ) : Option ℕ :=
  M[i]?.bind fun r => r[j]?

/-- Row total `r_i` (`em_data.sum(axis=1)`; also the crosstab margin column
`err_matrix[:-1, -1]`, named `col_sums` in the source). -/
def rowTotal (M : CountMatrix) (i : ℕ) : ℕ := (M.getD i []).sum

/-- Column total `c_j` (`em_data.sum(axis=0)`; also the crosstab margin row
`err_matrix[-1, :-1]`, named `row_sums` in the source). -/
def colTotal (M : CountMatrix) (j : ℕ) : ℕ :=
  (M.map fun r => r.getD j 0).sum

/-- Grand total (`em_data.sum()`, equivalently `row_sums.sum()`). -/
def grandTotal (M : CountMatrix) : ℕ := (M.map List.sum).sum

/-- Sum of the diagonal `diag = np.diag(err_matrix)[:-1]`. -/
def diagSum (M : CountMatrix) : ℕ :=
  ((List.range M.length).map fun i => Mval M i i).sum

/-- The `% correct` row of the table, `arr[-2, 2 : n_cells + 1]`:
`np.divide(diag, row_sums, out=zeros, where=row_sums != 0) * 100`.
Note the source's `row_sums` are the COLUMN totals of `em_data` (crosstab
margin row), so the entry under predicted column `j` is
`M[j][j] / c_j * 100`, 0 when `c_j = 0`. -/
def pct_correct_col (M : CountMatrix) : List ℚ :=
  (List.range M.length).map fun j =>
    calc_percent (Mval M j j : ℚ) (colTotal M j : ℚ)

/-- The `% correct` column of the table, `arr[2 : n_cells + 1, -2]`:
`np.divide(diag, col_sums, out=zeros, where=col_sums != 0) * 100`; the
source's `col_sums` are the ROW totals, so the entry beside observed row
`i` is `M[i][i] / r_i * 100`, 0 when `r_i = 0`. -/
def pct_correct_row (M : CountMatrix) : List ℚ :=
  (List.range M.length).map fun i =>
    calc_percent (Mval M i i : ℚ) (rowTotal M i : ℚ)

/-- The overall percent-correct cell `arr[-2, -2]`:
`diag.sum() / row_sums.sum() * 100.0` — an UNGUARDED division. -/
def pct_correct_overall (M : CountMatrix) : NpFloat :=
  npScale (npDiv (diagSum M : ℚ) (grandTotal M : ℚ)) 100

/-- The ±1 adjacency used when no fuzzy classes are declared
(`Classification(i, _, [i, i+1])` etc., lines 219-232 /
lines 254-261 of attribute_accuracy_formatter.py).  `n = len(diag)`. -/
def adjNoFuzzy (n i : ℕ) : List ℕ :=
  if i = 0 then [i, i + 1]
  else if i = n - 1 then [i - 1, i]
  else [i - 1, i, i + 1]

/-- A declared fuzzy class: `(original_class, fuzzy_class)` codes from
`attr.fuzzy_classes`. -/
abbrev FuzzyDecl := ℕ × ℕ

/-- `codes = {x.original_class ...}` listed out: the distinct
original-class codes (`list(codes)`, a deterministic enumeration of the
set; modelled in first-appearance order). -/
def xwalkCodes (fcs : List FuzzyDecl) : List ℕ :=
  (fcs.map Prod.fst).dedup

/-- `xwalk = {c: i for i, c in enumerate(list(codes))}`: code to matrix
index.  A lookup of a code absent from the original-class codes raises
KeyError in the source (`xwalk[elem.fuzzy_class]`); `indexOf` then falls
off the end of the code list, and such ill-formed declaration lists are
outside every claim considered here. -/
def xwalk (fcs : List FuzzyDecl) (c : ℕ) : ℕ :=
  (xwalkCodes fcs).indexOf c

/-- The adjacency list accumulated into `d[orig]` for matrix index `i`
when fuzzy classes are declared (lines 207-217 of
categorical_accuracy_formatter.py): the xwalk-translated fuzzy codes of
every declaration whose translated original code is `i`, in declaration
order.  `Classification`/`Classifier` (pynnmap.misc.classification_accuracy,
an external dependency) store this list and return it from
`fuzzy_classification`. -/
def adjFuzzy (fcs : List FuzzyDecl) (i : ℕ) : List ℕ :=
  (fcs.filter fun e => xwalk fcs e.1 = i).map fun e => xwalk fcs e.2

/-- `clf.fuzzy_classification(i)`: the declared adjacency when
`attr.fuzzy_classes` is non-empty, the ±1 window otherwise. -/
def fuzzy_classification (fcs : List FuzzyDecl) (n i : ℕ) : List ℕ :=
  if fcs.isEmpty then adjNoFuzzy n i else adjFuzzy fcs i

/-- Option-valued map over a list, short-circuiting at the first `none`:
the sequential loop with an exception escape. -/
def mapOpt {α β : Type} (f : α → Option β) : List α → Option (List β)
  | [] => some []
  | a :: l => (f a).bind fun b => (mapOpt f l).map (b :: ·)

/-- `r_correct[i] = em_data[i, f_classes].sum()`: `none` when a fuzzy
index is out of range (numpy raises IndexError). -/
def r_correct? (M : CountMatrix) (fcs : List FuzzyDecl) (i : ℕ) :
    Option ℕ :=
  (mapOpt (cell? M i) (fuzzy_classification fcs M.length i)).map List.sum

/-- `c_correct[i] = em_data[f_classes, i].sum()`. -/
def c_correct? (M : CountMatrix) (fcs : List FuzzyDecl) (i : ℕ) :
    Option ℕ :=
  (mapOpt (fun j => cell? M j i)
      (fuzzy_classification fcs M.length i)).map List.sum

/-- The `% fuzzy correct` row `arr[-1, 2 : em_size + 2]`:
`calc_percent(c_correct, c_totals)` per predicted column. -/
def pct_fuzzy_col? (M : CountMatrix) (fcs : List FuzzyDecl) :
    Option (List ℚ) :=
  mapOpt
    (fun j =>
      (c_correct? M fcs j).map fun c : ℕ =>
        calc_percent (c : ℚ) (colTotal M j : ℚ))
    (List.range M.length)

/-- The `% fuzzy correct` column `arr[2 : em_size + 2, -1]`:
`calc_percent(r_correct, r_totals)` per observed row. -/
def pct_fuzzy_row? (M : CountMatrix) (fcs : List FuzzyDecl) :
    Option (List ℚ) :=
  mapOpt
    (fun i =>
      (r_correct? M fcs i).map fun r : ℕ =>
        calc_percent (r : ℚ) (rowTotal M i : ℚ))
    (List.range M.length)

/-- `incorrect = sum over i of (r_totals[i] - r_correct[i])`, accumulated
in float arithmetic. -/
def incorrect? (M : CountMatrix) (fcs : List FuzzyDecl) : Option ℚ :=
  (mapOpt
      (fun i =>
        (r_correct? M fcs i).map fun r : ℕ =>
          (rowTotal M i : ℚ) - (r : ℚ))
      (List.range M.length)).map
    List.sum

/-- The overall percent-fuzzy-correct cell `arr[-1, -1]`:
`calc_percent(total - incorrect, total)` — guarded. -/
def pct_fuzzy_overall? (M : CountMatrix) (fcs : List FuzzyDecl) :
    Option ℚ :=
  (incorrect? M fcs).map fun inc =>
    calc_percent ((grandTotal M : ℚ) - inc) (grandTotal M : ℚ)

/-- The numeric accuracy cells of the finished error-matrix table. -/
structure ErrorMatrixStats where
  pctCorrectCol : List ℚ
  pctCorrectRow : List ℚ
  pctCorrectOverall : NpFloat
  pctFuzzyCol : List ℚ
  pctFuzzyRow : List ℚ
  pctFuzzyOverall : ℚ
deriving DecidableEq, Repr

/-- `build_error_matrix`, reduced to its numeric content: `none` models
the IndexError escape (no table is returned); otherwise the accuracy
cells of the produced table. -/
def build_error_matrix (M : CountMatrix) (fcs : List FuzzyDecl) :
    Option ErrorMatrixStats :=
  match pct_fuzzy_row? M fcs, pct_fuzzy_col? M fcs,
      pct_fuzzy_overall? M fcs with
  | some fr, some fc, some fo =>
      some
        { pctCorrectCol := pct_correct_col M
          pctCorrectRow := pct_correct_row M
          pctCorrectOverall := pct_correct_overall M
          pctFuzzyCol := fc
          pctFuzzyRow := fr
          pctFuzzyOverall := fo }
  | _, _, _ => none

/-- One record of the species accuracy file (`spp_df`), as selected by
`spp_df[spp_df.SPECIES == spp]` in species_accuracy_formatter.py: the four
presence/absence plot counts, the prevalence, and the file's KAPPA column
value. -/
structure SpeciesRecord where
  op_pp : ℕ
  op_pa : ℕ
  oa_pp : ℕ
  oa_pa : ℕ
  prevalence : ℚ
  kappa : ℚ
deriving DecidableEq, Repr

/-- The numeric content of one species row of the species accuracy table
(lines 168-199 of species_accuracy_formatter.py): prevalence, the 2×2
inner count table `[[OP_PP, OP_PA], [OA_PP, OA_PA]]`, and the rendered
kappa coefficient. -/
structure SpeciesRow where
  prevalence : ℚ
  countCells : List (List ℕ)
  kappa : ℚ
deriving DecidableEq, Repr

/-- Row construction of `SpeciesAccuracyFormatter.run_formatter`: the
counts are laid out two per inner row (`i % 2 == 1` splits), and the kappa
cell is `"%.4f" % data.KAPPA` — the KAPPA value read from the file. -/
def buildSpeciesRow (r : SpeciesRecord) : SpeciesRow :=
  { prevalence := r.prevalence
    countCells := [[r.op_pp, r.op_pa], [r.oa_pp, r.oa_pa]]
    kappa := r.kappa }

/-- Modelled from the spec: Cohen's kappa
`(Pr(a) - Pr(e)) / (1.0 - Pr(e))` as stated in the report text the
formatter itself renders (lines 52-80 of species_accuracy_formatter.py),
computed from the presence/absence counts.  `Pr(a)` is the observed
agreement `(OP_PP + OA_PA) / n`; `Pr(e)` is the chance agreement from the
marginals.  The computation itself lives in the upstream pynnmap package,
not in this repository. -/
def cohenKappa (r : SpeciesRecord) : ℚ :=
  let n : ℚ := (r.op_pp : ℚ) + r.op_pa + r.oa_pp + r.oa_pa
  let pra : ℚ := ((r.op_pp : ℚ) + r.oa_pa) / n
  let pre : ℚ :=
    (((r.op_pp : ℚ) + r.op_pa) * ((r.op_pp : ℚ) + r.oa_pp)
        + ((r.oa_pp : ℚ) + r.oa_pa) * ((r.op_pa : ℚ) + r.oa_pa))
      / (n * n)
  (pra - pre) / (1 - pre)

/-- Story assembly of `LemmaAccuracyReport.create_accuracy_report`
(lines 96-100 of lemma_accuracy_report.py): each formatter's `sub_story`
is appended to `self.story` in order when it is not `None`.  `α` stands
for the reportlab flowable type. -/
def create_accuracy_report_story {α : Type} (subStories : List (Option (List α))) :
    List α :=
  subStories.foldl
    (fun story s =>
      match s with
      | some l => story ++ l
      | none => story)
    []

/-! ### Helper lemmas -/

theorem mapOpt_eq_map {α β : Type} (f : α → Option β) (g : α → β) :
    ∀ l : List α, (∀ a ∈ l, f a = some (g a)) → mapOpt f l = some (l.map g)
  | [], _ => rfl
  | a :: l, h => by
    have ha := h a (List.mem_cons_self a l)
    have hl := mapOpt_eq_map f g l fun x hx => h x (List.mem_cons_of_mem a hx)
    simp [mapOpt, ha, hl]

theorem mapOpt_isSome {α β : Type} (f : α → Option β) :
    ∀ {l : List α} {res : List β},
      mapOpt f l = some res → ∀ a ∈ l, (f a).isSome := by
  intro l
  induction l with
  | nil => intro res _ a ha; cases ha
  | cons b l ih =>
    intro res h a ha
    simp only [mapOpt] at h
    cases hb : f b with
    | none => rw [hb] at h; cases h
    | some v =>
      rw [hb] at h
      cases hl : mapOpt f l with
      | none => rw [hl] at h; cases h
      | some t =>
        rcases List.mem_cons.mp ha with rfl | ha2
        · simp [hb]
        · exact ih hl a ha2

theorem mapOpt_some_elim {α β : Type} {f : α → Option β} {l : List α}
    {res : List β} (h : mapOpt f l = some res) (g : α → β)
    (hg : ∀ a ∈ l, f a = some (g a)) : res = l.map g := by
  have h2 := mapOpt_eq_map f g l hg
  rw [h] at h2
  exact (Option.some.injEq _ _).mp h2

theorem cell?_val {M : CountMatrix} {i j v : ℕ}
    (h : cell? M i j = some v) : v = Mval M i j := by
  unfold cell? at h
  cases hr : M[i]? with
  | none => rw [hr] at h; cases h
  | some r =>
    rw [hr] at h
    simp only [Option.some_bind] at h
    simp [Mval, List.getD_eq_getElem?_getD, hr, h]

theorem cell?_isSome_val {M : CountMatrix} {i j : ℕ}
    (h : (cell? M i j).isSome) : cell? M i j = some (Mval M i j) := by
  cases hc : cell? M i j with
  | none => rw [hc] at h; simp at h
  | some v => exact congrArg some (cell?_val hc)

/-- A successful `r_correct?` computes the sum of the row cells over the
fuzzy classification. -/
theorem r_correct?_eq {M : CountMatrix} {fcs : List FuzzyDecl} {i : ℕ}
    (h : (r_correct? M fcs i).isSome) :
    r_correct? M fcs i =
      some (((fuzzy_classification fcs M.length i).map fun j =>
        Mval M i j).sum) := by
  unfold r_correct? at *
  cases hm : mapOpt (cell? M i) (fuzzy_classification fcs M.length i) with
  | none => rw [hm] at h; simp at h
  | some res =>
    have hres :
        res = (fuzzy_classification fcs M.length i).map fun j =>
          Mval M i j := by
      apply mapOpt_some_elim hm
      intro j hj
      exact cell?_isSome_val (mapOpt_isSome _ hm j hj)
    rw [hres]
    rfl

/-- A successful `c_correct?` computes the sum of the column cells over
the fuzzy classification. -/
theorem c_correct?_eq {M : CountMatrix} {fcs : List FuzzyDecl} {i : ℕ}
    (h : (c_correct? M fcs i).isSome) :
    c_correct? M fcs i =
      some (((fuzzy_classification fcs M.length i).map fun j =>
        Mval M j i).sum) := by
  unfold c_correct? at *
  cases hm :
      mapOpt (fun j => cell? M j i)
        (fuzzy_classification fcs M.length i) with
  | none => rw [hm] at h; simp at h
  | some res =>
    have hres :
        res = (fuzzy_classification fcs M.length i).map fun j =>
          Mval M j i := by
      apply mapOpt_some_elim hm
      intro j hj
      exact cell?_isSome_val (mapOpt_isSome _ hm j hj)
    rw [hres]
    rfl

theorem mem_adjNoFuzzy_self (n i : ℕ) : i ∈ adjNoFuzzy n i := by
  unfold adjNoFuzzy
  split_ifs <;> simp

theorem adjNoFuzzy_nodup {n i : ℕ} (hi : i < n) : (adjNoFuzzy n i).Nodup := by
  unfold adjNoFuzzy
  split_ifs with h1 h2 <;> simp <;> omega

theorem mem_adjNoFuzzy_iff {n i : ℕ} (hn : 2 ≤ n) (hi : i < n) (j : ℕ) :
    j ∈ adjNoFuzzy n i ↔ j < n ∧ i ≤ j + 1 ∧ j ≤ i + 1 := by
  unfold adjNoFuzzy
  split_ifs with h1 h2 <;> simp <;> try omega

/-- The adjacency set in the words of the specification: the ±1 window
around class `i` clipped to the class range, `{i-1, i, i+1} ∩ {0..n-1}`. -/
def specAdjSet (n i : ℕ) : Finset ℕ :=
  (Finset.range n).filter fun j => i ≤ j + 1 ∧ j ≤ i + 1

theorem adjNoFuzzy_toFinset {n i : ℕ} (hn : 2 ≤ n) (hi : i < n) :
    (adjNoFuzzy n i).toFinset = specAdjSet n i := by
  ext j
  simp only [List.mem_toFinset, mem_adjNoFuzzy_iff hn hi j, specAdjSet,
    Finset.mem_filter, Finset.mem_range]

theorem adjNoFuzzy_sum_eq_finset {n i : ℕ} (hn : 2 ≤ n) (hi : i < n)
    (g : ℕ → ℕ) :
    ((adjNoFuzzy n i).map g).sum = (specAdjSet n i).sum g := by
  rw [← adjNoFuzzy_toFinset hn hi, List.sum_toFinset g (adjNoFuzzy_nodup hi)]

/-- Inversion for a successful `build_error_matrix`. -/
theorem build_error_matrix_some {M : CountMatrix} {fcs : List FuzzyDecl}
    {stats : ErrorMatrixStats}
    (h : build_error_matrix M fcs = some stats) :
    pct_fuzzy_row? M fcs = some stats.pctFuzzyRow ∧
    pct_fuzzy_col? M fcs = some stats.pctFuzzyCol ∧
    pct_fuzzy_overall? M fcs = some stats.pctFuzzyOverall ∧
    stats.pctCorrectCol = pct_correct_col M ∧
    stats.pctCorrectRow = pct_correct_row M ∧
    stats.pctCorrectOverall = pct_correct_overall M := by
  unfold build_error_matrix at h
  cases hr : pct_fuzzy_row? M fcs with
  | none => rw [hr] at h; cases h
  | some fr =>
    cases hc : pct_fuzzy_col? M fcs with
    | none => rw [hr, hc] at h; cases h
    | some fc =>
      cases ho : pct_fuzzy_overall? M fcs with
      | none => rw [hr, hc, ho] at h; cases h
      | some fo =>
        rw [hr, hc, ho] at h
        injection h with h2
        subst h2
        exact ⟨rfl, rfl, rfl, rfl, rfl, rfl⟩

theorem mapOpt_getElem {α β : Type} {f : α → Option β} :
    ∀ {l : List α} {res : List β}, mapOpt f l = some res →
      ∀ i : ℕ, res[i]? = l[i]?.bind f := by
  intro l
  induction l with
  | nil =>
    intro res h i
    simp only [mapOpt] at h
    injection h with h2
    subst h2
    simp
  | cons a l ih =>
    intro res h i
    simp only [mapOpt] at h
    cases hb : f a with
    | none => rw [hb] at h; cases h
    | some v =>
      rw [hb] at h
      cases hl : mapOpt f l with
      | none => rw [hl] at h; cases h
      | some t =>
        rw [hl] at h
        simp only [Option.some_bind, Option.map_some'] at h
        injection h with h2
        subst h2
        cases i with
        | zero => simp [hb]
        | succ k => simpa using ih hl k

theorem isSome_of_map_isSome {α β : Type} {o : Option α} {g : α → β}
    (h : (o.map g).isSome) : o.isSome := by
  cases o <;> simp at h ⊢

theorem pct_correct_row_get {M : CountMatrix} {i : ℕ} (hi : i < M.length) :
    (pct_correct_row M)[i]? =
      some (calc_percent (Mval M i i : ℚ) (rowTotal M i : ℚ)) := by
  simp [pct_correct_row, List.getElem?_range hi]

theorem pct_correct_col_get {M : CountMatrix} {j : ℕ} (hj : j < M.length) :
    (pct_correct_col M)[j]? =
      some (calc_percent (Mval M j j : ℚ) (colTotal M j : ℚ)) := by
  simp [pct_correct_col, List.getElem?_range hj]

/-- Entry `i` of a successful `% fuzzy correct` column. -/
theorem pct_fuzzy_row_get {M : CountMatrix} {fcs : List FuzzyDecl}
    {fr : List ℚ} (h : pct_fuzzy_row? M fcs = some fr) {i : ℕ}
    (hi : i < M.length) :
    fr[i]? = some (calc_percent
      ((((fuzzy_classification fcs M.length i).map fun j =>
        Mval M i j).sum : ℕ) : ℚ)
      (rowTotal M i : ℚ)) := by
  have hmem : i ∈ List.range M.length := List.mem_range.mpr hi
  have hs0 := mapOpt_isSome _ h i hmem
  have hs : (r_correct? M fcs i).isSome := isSome_of_map_isSome hs0
  have hg := mapOpt_getElem h i
  rw [List.getElem?_range hi, Option.some_bind, r_correct?_eq hs] at hg
  simpa using hg

/-- Entry `j` of a successful `% fuzzy correct` row. -/
theorem pct_fuzzy_col_get {M : CountMatrix} {fcs : List FuzzyDecl}
    {fc : List ℚ} (h : pct_fuzzy_col? M fcs = some fc) {j : ℕ}
    (hj : j < M.length) :
    fc[j]? = some (calc_percent
      ((((fuzzy_classification fcs M.length j).map fun i =>
        Mval M i j).sum : ℕ) : ℚ)
      (colTotal M j : ℚ)) := by
  have hmem : j ∈ List.range M.length := List.mem_range.mpr hj
  have hs0 := mapOpt_isSome _ h j hmem
  have hs : (c_correct? M fcs j).isSome := isSome_of_map_isSome hs0
  have hg := mapOpt_getElem h j
  rw [List.getElem?_range hj, Option.some_bind, c_correct?_eq hs] at hg
  simpa using hg

theorem list_sum_map_sub (l : List ℕ) (f g : ℕ → ℚ) :
    (l.map fun i => f i - g i).sum = (l.map f).sum - (l.map g).sum := by
  induction l with
  | nil => simp
  | cons a l ih =>
    simp only [List.map_cons, List.sum_cons, ih]
    ring

/-- The row totals of the count matrix sum to its grand total. -/
theorem sum_rowTotal (M : CountMatrix) :
    ((List.range M.length).map fun i => rowTotal M i).sum = grandTotal M := by
  induction M with
  | nil => rfl
  | cons r M ih =>
    have step :
        (List.range (M.length + 1)).map (fun i => rowTotal (r :: M) i)
          = r.sum :: ((List.range M.length).map fun i => rowTotal M i) := by
      rw [List.range_succ_eq_map]
      simp only [List.map_cons, List.map_map]
      congr 1
    show ((List.range (M.length + 1)).map fun i =>
        rowTotal (r :: M) i).sum = grandTotal (r :: M)
    rw [step, List.sum_cons, ih]
    rfl

/-- Cast form of `sum_rowTotal`. -/
theorem sum_rowTotal_cast (M : CountMatrix) :
    ((List.range M.length).map fun i => ((rowTotal M i : ℕ) : ℚ)).sum
      = ((grandTotal M : ℕ) : ℚ) := by
  rw [← sum_rowTotal M, Nat.cast_list_sum, List.map_map]
  rfl

/-- The overall percent-fuzzy-correct of a successful run equals the
guarded percent of the total fuzzy-correct count over the grand total. -/
theorem pct_fuzzy_overall_eq {M : CountMatrix} {fcs : List FuzzyDecl}
    {fo : ℚ} (h : pct_fuzzy_overall? M fcs = some fo) :
    fo = calc_percent
      (((List.range M.length).map fun i =>
        ((((fuzzy_classification fcs M.length i).map fun j =>
          Mval M i j).sum : ℕ) : ℚ)).sum)
      (grandTotal M : ℚ) := by
  unfold pct_fuzzy_overall? at h
  cases hinc : incorrect? M fcs with
  | none => rw [hinc] at h; cases h
  | some inc =>
    rw [hinc, Option.map_some'] at h
    injection h with h2
    subst h2
    unfold incorrect? at hinc
    cases hm : mapOpt
        (fun i => (r_correct? M fcs i).map fun r : ℕ =>
          (rowTotal M i : ℚ) - (r : ℚ)) (List.range M.length) with
    | none => rw [hm] at hinc; cases hinc
    | some res =>
      rw [hm, Option.map_some'] at hinc
      injection hinc with h3
      have hres : res = (List.range M.length).map fun i =>
          (rowTotal M i : ℚ) -
            ((((fuzzy_classification fcs M.length i).map fun j =>
              Mval M i j).sum : ℕ) : ℚ) := by
        apply mapOpt_some_elim hm
        intro i hi
        have hs : (r_correct? M fcs i).isSome :=
          isSome_of_map_isSome (mapOpt_isSome _ hm i hi)
        rw [r_correct?_eq hs, Option.map_some']
      have hinc2 : inc = (grandTotal M : ℚ) -
          ((List.range M.length).map fun i =>
            ((((fuzzy_classification fcs M.length i).map fun j =>
              Mval M i j).sum : ℕ) : ℚ)).sum := by
        rw [← h3, hres, list_sum_map_sub, sum_rowTotal_cast]
      rw [hinc2, sub_sub_cancel]

theorem mapOpt_mem {α β : Type} {f : α → Option β} :
    ∀ {l : List α} {res : List β}, mapOpt f l = some res →
      ∀ b ∈ res, ∃ a ∈ l, f a = some b := by
  intro l
  induction l with
  | nil =>
    intro res h b hb
    simp only [mapOpt] at h
    injection h with h2
    subst h2
    cases hb
  | cons a l ih =>
    intro res h b hb
    simp only [mapOpt] at h
    cases hc : f a with
    | none => rw [hc] at h; cases h
    | some v =>
      rw [hc] at h
      cases hl : mapOpt f l with
      | none => rw [hl] at h; cases h
      | some t =>
        rw [hl] at h
        simp only [Option.some_bind, Option.map_some'] at h
        injection h with h2
        subst h2
        rcases List.mem_cons.mp hb with rfl | hb2
        · exact ⟨a, List.mem_cons_self a l, hc⟩
        · obtain ⟨x, hx, hfx⟩ := ih hl b hb2
          exact ⟨x, List.mem_cons_of_mem a hx, hfx⟩

/-! ### Concrete instances used by the witnesses -/

/-- A 2×2 count matrix whose first observed row is all zero. -/
def emA : CountMatrix := [[0, 0], [1, 2]]

/-- The accuracy cells produced for `emA` with no fuzzy classes. -/
def statsA : ErrorMatrixStats :=
  { pctCorrectCol := [0, 100]
    pctCorrectRow := [0, 200 / 3]
    pctCorrectOverall := .val (200 / 3)
    pctFuzzyCol := [100, 100]
    pctFuzzyRow := [0, 100]
    pctFuzzyOverall := 100 }

/-- A 2×2 count matrix with all totals nonzero. -/
def emB : CountMatrix := [[1, 2], [3, 4]]

/-- The accuracy cells produced for `emB` with no fuzzy classes. -/
def statsB : ErrorMatrixStats :=
  { pctCorrectCol := [25, 200 / 3]
    pctCorrectRow := [100 / 3, 400 / 7]
    pctCorrectOverall := .val 50
    pctFuzzyCol := [100, 100]
    pctFuzzyRow := [100, 100]
    pctFuzzyOverall := 100 }

/-- Fuzzy-class declarations on codes 1 and 2: class 1 is fuzzy to itself
and 2; class 2 only to itself. -/
def fcsC : List FuzzyDecl := [(1, 1), (1, 2), (2, 2)]

/-- The accuracy cells produced for `emB` with declarations `fcsC`. -/
def statsC : ErrorMatrixStats :=
  { pctCorrectCol := [25, 200 / 3]
    pctCorrectRow := [100 / 3, 400 / 7]
    pctCorrectOverall := .val 50
    pctFuzzyCol := [100, 200 / 3]
    pctFuzzyRow := [100, 400 / 7]
    pctFuzzyOverall := 70 }

/-- The all-zero 2×2 count matrix. -/
def emZ : CountMatrix := [[0, 0], [0, 0]]

/-- The accuracy cells produced for `emZ`: all guarded entries are 0 and
the unguarded overall percent-correct is NaN. -/
def statsZ : ErrorMatrixStats :=
  { pctCorrectCol := [0, 0]
    pctCorrectRow := [0, 0]
    pctCorrectOverall := .nan
    pctFuzzyCol := [0, 0]
    pctFuzzyRow := [0, 0]
    pctFuzzyOverall := 0 }

/-! ### Claims -/

/-- C1: for an N×N count matrix, every observed row with zero total and
every predicted column with zero total has its percent-correct and
percent-fuzzy-correct entry reported as exactly 0; the guarded divisions
(`np.divide` with `where=`, `np.where`) are total, so no division error is
raised for such rows or columns. -/
theorem zero_total_rows_and_cols_report_zero
    (M : CountMatrix) (fcs : List FuzzyDecl) (stats : ErrorMatrixStats)
    (h : build_error_matrix M fcs = some stats) (i : ℕ)
    (hi : i < M.length) :
    (rowTotal M i = 0 →
      stats.pctCorrectRow[i]? = some 0 ∧ stats.pctFuzzyRow[i]? = some 0) ∧
    (colTotal M i = 0 →
      stats.pctCorrectCol[i]? = some 0 ∧ stats.pctFuzzyCol[i]? = some 0) := by
  obtain ⟨hfr, hfc, -, hcc, hcr, -⟩ := build_error_matrix_some h
  constructor
  · intro hz
    constructor
    · rw [hcr, pct_correct_row_get hi, hz]
      simp [calc_percent]
    · rw [pct_fuzzy_row_get hfr hi, hz]
      simp [calc_percent]
  · intro hz
    constructor
    · rw [hcc, pct_correct_col_get hi, hz]
      simp [calc_percent]
    · rw [pct_fuzzy_col_get hfc hi, hz]
      simp [calc_percent]

theorem zero_total_rows_and_cols_report_zero_witness :
    build_error_matrix emA [] = some statsA ∧ rowTotal emA 0 = 0 ∧
    statsA.pctCorrectRow[0]? = some 0 ∧ statsA.pctFuzzyRow[0]? = some 0 := by
  have hb : build_error_matrix emA [] = some statsA := by
    norm_num [build_error_matrix, pct_fuzzy_row?, pct_fuzzy_col?,
      pct_fuzzy_overall?, incorrect?, r_correct?, c_correct?, mapOpt, cell?,
      fuzzy_classification, adjNoFuzzy, calc_percent, rowTotal, colTotal,
      grandTotal, diagSum, Mval, pct_correct_row, pct_correct_col,
      pct_correct_overall, npDiv, npScale, emA, statsA, List.range_succ]
  have hz : rowTotal emA 0 = 0 := by decide
  have hm :=
    (zero_total_rows_and_cols_report_zero emA [] statsA hb 0 (by decide)).1
      hz
  exact ⟨hb, hz, hm.1, hm.2⟩

/-- C2: the percent-correct reported under predicted column j is
M[j][j] / c_j × 100 when c_j ≠ 0, the percent-correct beside observed
row i is M[i][i] / r_i × 100 when r_i ≠ 0, and the overall
percent-correct is the diagonal sum over the grand total × 100 (the
quotient is well defined whenever the grand total is nonzero). -/
theorem pct_correct_cells_formula
    (M : CountMatrix) (fcs : List FuzzyDecl) (stats : ErrorMatrixStats)
    (h : build_error_matrix M fcs = some stats) :
    (∀ j, j < M.length → colTotal M j ≠ 0 →
      stats.pctCorrectCol[j]? =
        some ((Mval M j j : ℚ) / (colTotal M j : ℚ) * 100)) ∧
    (∀ i, i < M.length → rowTotal M i ≠ 0 →
      stats.pctCorrectRow[i]? =
        some ((Mval M i i : ℚ) / (rowTotal M i : ℚ) * 100)) ∧
    (grandTotal M ≠ 0 →
      stats.pctCorrectOverall =
        NpFloat.val ((diagSum M : ℚ) / (grandTotal M : ℚ) * 100)) := by
  obtain ⟨-, -, -, hcc, hcr, hco⟩ := build_error_matrix_some h
  refine ⟨?_, ?_, ?_⟩
  · intro j hj hz
    rw [hcc, pct_correct_col_get hj]
    have hz' : ((colTotal M j : ℕ) : ℚ) ≠ 0 := Nat.cast_ne_zero.mpr hz
    simp [calc_percent, hz']
  · intro i hi hz
    rw [hcr, pct_correct_row_get hi]
    have hz' : ((rowTotal M i : ℕ) : ℚ) ≠ 0 := Nat.cast_ne_zero.mpr hz
    simp [calc_percent, hz']
  · intro hz
    rw [hco]
    have hz' : ((grandTotal M : ℕ) : ℚ) ≠ 0 := Nat.cast_ne_zero.mpr hz
    simp [pct_correct_overall, npDiv, npScale, hz']

theorem pct_correct_cells_formula_witness :
    build_error_matrix emB [] = some statsB ∧ colTotal emB 1 ≠ 0 ∧
    statsB.pctCorrectCol[1]? =
      some ((Mval emB 1 1 : ℚ) / (colTotal emB 1 : ℚ) * 100) := by
  have hb : build_error_matrix emB [] = some statsB := by
    norm_num [build_error_matrix, pct_fuzzy_row?, pct_fuzzy_col?,
      pct_fuzzy_overall?, incorrect?, r_correct?, c_correct?, mapOpt, cell?,
      fuzzy_classification, adjNoFuzzy, calc_percent, rowTotal, colTotal,
      grandTotal, diagSum, Mval, pct_correct_row, pct_correct_col,
      pct_correct_overall, npDiv, npScale, emB, statsB, List.range_succ]
  have hz : colTotal emB 1 ≠ 0 := by decide
  exact ⟨hb, hz,
    (pct_correct_cells_formula emB [] statsB hb).1 1 (by decide) hz⟩

/-- The species record refuting C6: the file's KAPPA column holds 0, while
Cohen's kappa computed from the counts (1 agreeing present, 1 agreeing
absent, no disagreements) is 1. -/
def kappaCex : SpeciesRecord :=
  { op_pp := 1, op_pa := 0, oa_pp := 0, oa_pa := 1
    prevalence := 1 / 2, kappa := 0 }

/-- C6 counterexample: the kappa rendered in the species row is the KAPPA
value read from the species accuracy file, which at this concrete record
differs from Cohen's kappa computed from its presence/absence counts. -/
theorem species_kappa_not_recomputed_cex :
    (buildSpeciesRow kappaCex).kappa = 0 ∧ cohenKappa kappaCex = 1 ∧
    (buildSpeciesRow kappaCex).kappa ≠ cohenKappa kappaCex := by
  refine ⟨rfl, ?_, ?_⟩ <;>
    norm_num [cohenKappa, kappaCex, buildSpeciesRow]

/-- C6 (amended): the kappa coefficient rendered for a species row is the
KAPPA value read from that species' record of the species accuracy file
(`data.KAPPA`); the formatter does not recompute it from the
presence/absence counts, so it equals Cohen's kappa exactly when the
file's value does. -/
theorem species_kappa_is_file_value (r : SpeciesRecord) :
    (buildSpeciesRow r).kappa = r.kappa ∧
    ((buildSpeciesRow r).kappa = cohenKappa r ↔ r.kappa = cohenKappa r) :=
  ⟨rfl, Iff.rfl⟩

theorem create_story_foldl {α : Type} (l : List (Option (List α))) :
    ∀ init : List α,
      l.foldl
        (fun story s =>
          match s with
          | some x => story ++ x
          | none => story)
        init
      = init ++ (l.map fun s => s.getD []).flatten := by
  induction l with
  | nil => intro init; simp
  | cons s l ih =>
    intro init
    cases s with
    | none => simp [List.foldl_cons, ih]
    | some x => simp [List.foldl_cons, ih, List.append_assoc]

/-- C7: the document story is the in-order concatenation of the flowable
lists returned by the six formatters (Introduction, AttributeAccuracy,
CategoricalAccuracy, SpeciesAccuracy, DataDictionary, References),
omitting exactly a formatter whose result is `None`; nothing is reordered,
duplicated, or dropped before `doc.build` consumes the list. -/
theorem story_in_order_concat {α : Type}
    (intro attrAcc catAcc sppAcc dataDict refs : Option (List α)) :
    create_accuracy_report_story
        [intro, attrAcc, catAcc, sppAcc, dataDict, refs]
      = intro.getD [] ++ attrAcc.getD [] ++ catAcc.getD [] ++
          sppAcc.getD [] ++ dataDict.getD [] ++ refs.getD [] := by
  rw [create_accuracy_report_story, create_story_foldl]
  simp [List.append_assoc]

/-- C8: `build_error_matrix` is deterministic — on equal inputs (count
matrix and fuzzy-class declarations) it produces identical numeric cells,
and the code-to-index crosswalk built from the distinct original-class
codes is the same mapping both times. -/
theorem build_error_matrix_deterministic
    (M1 M2 : CountMatrix) (f1 f2 : List FuzzyDecl)
    (hM : M1 = M2) (hf : f1 = f2) :
    build_error_matrix M1 f1 = build_error_matrix M2 f2 ∧
    xwalkCodes f1 = xwalkCodes f2 ∧ ∀ c, xwalk f1 c = xwalk f2 c := by
  subst hM
  subst hf
  exact ⟨rfl, rfl, fun _ => rfl⟩

theorem build_error_matrix_deterministic_witness :
    build_error_matrix emB fcsC = build_error_matrix emB fcsC ∧
    xwalkCodes fcsC = xwalkCodes fcsC ∧ xwalk fcsC 1 = xwalk fcsC 1 := by
  have hm := build_error_matrix_deterministic emB emB fcsC fcsC rfl rfl
  exact ⟨hm.1, hm.2.1, hm.2.2 1⟩

/-- C10: with a single class and no declared fuzzy classes, class 0 is
assigned the adjacency list [0, 1]; summing the fuzzy-correct counts then
indexes position 1 of the 1×1 count matrix, so `build_error_matrix` fails
with an out-of-range index (no table is returned). -/
theorem one_class_no_table (row : List ℕ) (hrow : row.length = 1) :
    fuzzy_classification [] 1 0 = [0, 1] ∧
    build_error_matrix [row] [] = none := by
  rcases row with - | ⟨a, rest⟩
  · cases hrow
  · rcases rest with - | ⟨b, rest2⟩
    · exact ⟨rfl, rfl⟩
    · cases hrow

theorem one_class_no_table_witness :
    ([5] : List ℕ).length = 1 ∧ fuzzy_classification [] 1 0 = [0, 1] ∧
    build_error_matrix [[5]] [] = none := by
  have hm := one_class_no_table [5] rfl
  exact ⟨rfl, hm.1, hm.2⟩

/-- C3: with no declared fuzzy classes and at least two classes, the
adjacency used for class i is exactly the ±1 window {i-1, i, i+1}
intersected with {0..N-1}, and the percent-fuzzy-correct for observed row
i (resp. predicted column j) is the sum of the row (resp. column) counts
over that set, divided by the row (resp. column) total, × 100. -/
theorem fuzzy_pct_plus_minus_one_window
    (M : CountMatrix) (stats : ErrorMatrixStats)
    (h : build_error_matrix M [] = some stats)
    (hn : 2 ≤ M.length) (i : ℕ) (hi : i < M.length) :
    (∀ j, j ∈ fuzzy_classification [] M.length i ↔
      j ∈ specAdjSet M.length i) ∧
    (rowTotal M i ≠ 0 →
      stats.pctFuzzyRow[i]? = some
        (((specAdjSet M.length i).sum fun j => (Mval M i j : ℚ)) /
          (rowTotal M i : ℚ) * 100)) ∧
    (colTotal M i ≠ 0 →
      stats.pctFuzzyCol[i]? = some
        (((specAdjSet M.length i).sum fun j => (Mval M j i : ℚ)) /
          (colTotal M i : ℚ) * 100)) := by
  obtain ⟨hfr, hfc, -, -, -, -⟩ := build_error_matrix_some h
  have hcl : fuzzy_classification [] M.length i = adjNoFuzzy M.length i := by
    simp [fuzzy_classification]
  refine ⟨?_, ?_, ?_⟩
  · intro j
    rw [hcl, mem_adjNoFuzzy_iff hn hi j]
    simp [specAdjSet]
  · intro hz
    have hz' : ((rowTotal M i : ℕ) : ℚ) ≠ 0 := Nat.cast_ne_zero.mpr hz
    rw [pct_fuzzy_row_get hfr hi, hcl,
      adjNoFuzzy_sum_eq_finset hn hi fun j => Mval M i j]
    rw [Nat.cast_sum]
    simp [calc_percent, hz']
  · intro hz
    have hz' : ((colTotal M i : ℕ) : ℚ) ≠ 0 := Nat.cast_ne_zero.mpr hz
    rw [pct_fuzzy_col_get hfc hi, hcl,
      adjNoFuzzy_sum_eq_finset hn hi fun j => Mval M j i]
    rw [Nat.cast_sum]
    simp [calc_percent, hz']

theorem fuzzy_pct_plus_minus_one_window_witness :
    build_error_matrix emB [] = some statsB ∧ rowTotal emB 0 ≠ 0 ∧
    statsB.pctFuzzyRow[0]? = some
      (((specAdjSet emB.length 0).sum fun j => (Mval emB 0 j : ℚ)) /
        (rowTotal emB 0 : ℚ) * 100) := by
  have hb : build_error_matrix emB [] = some statsB := by
    norm_num [build_error_matrix, pct_fuzzy_row?, pct_fuzzy_col?,
      pct_fuzzy_overall?, incorrect?, r_correct?, c_correct?, mapOpt, cell?,
      fuzzy_classification, adjNoFuzzy, calc_percent, rowTotal, colTotal,
      grandTotal, diagSum, Mval, pct_correct_row, pct_correct_col,
      pct_correct_overall, npDiv, npScale, emB, statsB, List.range_succ]
  have hz : rowTotal emB 0 ≠ 0 := by decide
  exact ⟨hb, hz,
    (fuzzy_pct_plus_minus_one_window emB statsB hb (by decide) 0
      (by decide)).2.1 hz⟩

/-- The adjacency set in the words of the specification for a declared
fuzzy-class list: the set of fuzzy classes declared for class index `i`,
with class codes translated to matrix indices through the crosswalk built
from the distinct original-class codes. -/
def declaredAdjSet (fcs : List FuzzyDecl) (i : ℕ) : Finset ℕ :=
  (fcs.toFinset.filter fun e => xwalk fcs e.1 = i).image fun e =>
    xwalk fcs e.2

theorem adjFuzzy_toFinset (fcs : List FuzzyDecl) (i : ℕ) :
    (adjFuzzy fcs i).toFinset = declaredAdjSet fcs i := by
  ext x
  simp [adjFuzzy, declaredAdjSet, List.mem_filter, Finset.mem_image,
    Finset.mem_filter, List.mem_toFinset]

/-- C4: for an attribute with a non-empty fuzzy-class list, the adjacency
used for class index i is exactly the set of fuzzy classes declared for
it (codes translated through the crosswalk over the distinct
original-class codes), and the percent-fuzzy-correct for observed row i
(resp. predicted column i) sums the counts over exactly those cells
(provided the declarations for the class are free of duplicates). -/
theorem fuzzy_pct_declared_adjacency
    (M : CountMatrix) (fcs : List FuzzyDecl) (stats : ErrorMatrixStats)
    (h : build_error_matrix M fcs = some stats)
    (hne : fcs ≠ []) (i : ℕ) (hi : i < M.length)
    (hnd : (adjFuzzy fcs i).Nodup) :
    (fuzzy_classification fcs M.length i).toFinset = declaredAdjSet fcs i ∧
    (rowTotal M i ≠ 0 →
      stats.pctFuzzyRow[i]? = some
        (((declaredAdjSet fcs i).sum fun j => (Mval M i j : ℚ)) /
          (rowTotal M i : ℚ) * 100)) ∧
    (colTotal M i ≠ 0 →
      stats.pctFuzzyCol[i]? = some
        (((declaredAdjSet fcs i).sum fun j => (Mval M j i : ℚ)) /
          (colTotal M i : ℚ) * 100)) := by
  obtain ⟨hfr, hfc, -, -, -, -⟩ := build_error_matrix_some h
  have hcl : fuzzy_classification fcs M.length i = adjFuzzy fcs i := by
    rcases fcs with - | ⟨e, rest⟩
    · exact absurd rfl hne
    · rfl
  have hsum : ∀ g : ℕ → ℕ,
      ((adjFuzzy fcs i).map g).sum = (declaredAdjSet fcs i).sum g := by
    intro g
    rw [← adjFuzzy_toFinset fcs i, List.sum_toFinset g hnd]
  refine ⟨by rw [hcl, adjFuzzy_toFinset], ?_, ?_⟩
  · intro hz
    have hz' : ((rowTotal M i : ℕ) : ℚ) ≠ 0 := Nat.cast_ne_zero.mpr hz
    rw [pct_fuzzy_row_get hfr hi, hcl, hsum fun j => Mval M i j,
      Nat.cast_sum]
    simp [calc_percent, hz']
  · intro hz
    have hz' : ((colTotal M i : ℕ) : ℚ) ≠ 0 := Nat.cast_ne_zero.mpr hz
    rw [pct_fuzzy_col_get hfc hi, hcl, hsum fun j => Mval M j i,
      Nat.cast_sum]
    simp [calc_percent, hz']

theorem fuzzy_pct_declared_adjacency_witness :
    build_error_matrix emB fcsC = some statsC ∧ rowTotal emB 0 ≠ 0 ∧
    statsC.pctFuzzyRow[0]? = some
      (((declaredAdjSet fcsC 0).sum fun j => (Mval emB 0 j : ℚ)) /
        (rowTotal emB 0 : ℚ) * 100) := by
  have hr0 : r_correct? [[1, 2], [3, 4]] fcsC 0 = some 3 := by decide
  have hr1 : r_correct? [[1, 2], [3, 4]] fcsC 1 = some 4 := by decide
  have hc0 : c_correct? [[1, 2], [3, 4]] fcsC 0 = some 4 := by decide
  have hc1 : c_correct? [[1, 2], [3, 4]] fcsC 1 = some 4 := by decide
  have hb : build_error_matrix emB fcsC = some statsC := by
    norm_num [build_error_matrix, pct_fuzzy_row?, pct_fuzzy_col?,
      pct_fuzzy_overall?, incorrect?, hr0, hr1, hc0, hc1, mapOpt,
      calc_percent, rowTotal, colTotal,
      grandTotal, diagSum, Mval, pct_correct_row, pct_correct_col,
      pct_correct_overall, npDiv, npScale, emB, statsC,
      List.range_succ]
  have hz : rowTotal emB 0 ≠ 0 := by decide
  exact ⟨hb, hz,
    (fuzzy_pct_declared_adjacency emB fcsC statsC hb (by decide) 0
      (by decide) (by decide)).2.1 hz⟩

theorem getD_le_sum (r : List ℕ) (j : ℕ) : r.getD j 0 ≤ r.sum := by
  by_cases hj : j < r.length
  · rw [List.getD_eq_getElem r 0 hj]
    exact List.le_sum_of_mem (List.getElem_mem hj)
  · rw [List.getD_eq_getElem?_getD, List.getElem?_eq_none (by omega)]
    exact Nat.zero_le _

theorem rowTotal_le_grandTotal (M : CountMatrix) (i : ℕ) :
    rowTotal M i ≤ grandTotal M := by
  by_cases hi : i < M.length
  · have hmem : M.getD i [] ∈ M := by
      rw [List.getD_eq_getElem M [] hi]
      exact List.getElem_mem hi
    exact List.le_sum_of_mem (List.mem_map_of_mem List.sum hmem)
  · have hnil : M.getD i [] = [] := by
      rw [List.getD_eq_getElem?_getD, List.getElem?_eq_none (by omega)]
      rfl
    unfold rowTotal
    rw [hnil]
    exact Nat.zero_le _

theorem colTotal_le_grandTotal (M : CountMatrix) (j : ℕ) :
    colTotal M j ≤ grandTotal M := by
  unfold colTotal grandTotal
  exact List.sum_le_sum fun r _ => getD_le_sum r j

theorem diagSum_le_grandTotal (M : CountMatrix) :
    diagSum M ≤ grandTotal M := by
  unfold diagSum
  calc ((List.range M.length).map fun i => Mval M i i).sum
      ≤ ((List.range M.length).map fun i => rowTotal M i).sum :=
        List.sum_le_sum fun i _ => getD_le_sum _ _
    _ = grandTotal M := sum_rowTotal M

/-- C5 (amended): for a count matrix whose counts all total zero, every
guarded percent entry — the per-row and per-column percent-correct and
percent-fuzzy-correct entries and the overall percent-fuzzy-correct cell
— is reported as 0 without a division error; the overall percent-correct
cell, however, is the unguarded quotient 0/0 and is reported as NaN
(a numpy warning, not an exception), not as 0. -/
theorem all_zero_matrix_cells
    (M : CountMatrix) (fcs : List FuzzyDecl) (stats : ErrorMatrixStats)
    (h : build_error_matrix M fcs = some stats)
    (hz : grandTotal M = 0) :
    (∀ q ∈ stats.pctCorrectRow, q = 0) ∧
    (∀ q ∈ stats.pctCorrectCol, q = 0) ∧
    (∀ q ∈ stats.pctFuzzyRow, q = 0) ∧
    (∀ q ∈ stats.pctFuzzyCol, q = 0) ∧
    stats.pctFuzzyOverall = 0 ∧
    stats.pctCorrectOverall = NpFloat.nan := by
  obtain ⟨hfr, hfc, hfo, hcc, hcr, hco⟩ := build_error_matrix_some h
  have hrow : ∀ i, rowTotal M i = 0 := fun i =>
    Nat.le_zero.mp (hz ▸ rowTotal_le_grandTotal M i)
  have hcol : ∀ j, colTotal M j = 0 := fun j =>
    Nat.le_zero.mp (hz ▸ colTotal_le_grandTotal M j)
  refine ⟨?_, ?_, ?_, ?_, ?_, ?_⟩
  · intro q hq
    rw [hcr] at hq
    obtain ⟨i, -, hqi⟩ := List.mem_map.mp hq
    rw [← hqi, hrow i]
    simp [calc_percent]
  · intro q hq
    rw [hcc] at hq
    obtain ⟨j, -, hqj⟩ := List.mem_map.mp hq
    rw [← hqj, hcol j]
    simp [calc_percent]
  · intro q hq
    obtain ⟨i, -, hfi⟩ := mapOpt_mem hfr q hq
    cases hri : r_correct? M fcs i with
    | none => rw [hri] at hfi; cases hfi
    | some rc =>
      rw [hri, Option.map_some'] at hfi
      injection hfi with h2
      rw [← h2, hrow i]
      simp [calc_percent]
  · intro q hq
    obtain ⟨j, -, hfj⟩ := mapOpt_mem hfc q hq
    cases hcj : c_correct? M fcs j with
    | none => rw [hcj] at hfj; cases hfj
    | some cc =>
      rw [hcj, Option.map_some'] at hfj
      injection hfj with h2
      rw [← h2, hcol j]
      simp [calc_percent]
  · rw [pct_fuzzy_overall_eq hfo, hz]
    simp [calc_percent]
  · have hdiag : diagSum M = 0 :=
      Nat.le_zero.mp (hz ▸ diagSum_le_grandTotal M)
    rw [hco]
    simp [pct_correct_overall, npDiv, npScale, hz, hdiag]

/-- C5 counterexample: at the all-zero 2×2 count matrix a table is
produced, but its overall percent-correct cell is NaN, not zero as the
claim states. -/
theorem all_zero_overall_pct_correct_nan_cex :
    build_error_matrix emZ [] = some statsZ ∧
    statsZ.pctCorrectOverall = NpFloat.nan ∧
    statsZ.pctCorrectOverall ≠ NpFloat.val 0 := by
  have hb : build_error_matrix emZ [] = some statsZ := by
    norm_num [build_error_matrix, pct_fuzzy_row?, pct_fuzzy_col?,
      pct_fuzzy_overall?, incorrect?, r_correct?, c_correct?, mapOpt, cell?,
      fuzzy_classification, adjNoFuzzy, calc_percent, rowTotal, colTotal,
      grandTotal, diagSum, Mval, pct_correct_row, pct_correct_col,
      pct_correct_overall, npDiv, npScale, emZ, statsZ, List.range_succ]
  refine ⟨hb, rfl, fun hc => ?_⟩
  cases hc

theorem all_zero_matrix_cells_witness :
    build_error_matrix emZ [] = some statsZ ∧ grandTotal emZ = 0 ∧
    statsZ.pctFuzzyOverall = 0 ∧
    statsZ.pctCorrectOverall = NpFloat.nan := by
  have hb : build_error_matrix emZ [] = some statsZ := by
    norm_num [build_error_matrix, pct_fuzzy_row?, pct_fuzzy_col?,
      pct_fuzzy_overall?, incorrect?, r_correct?, c_correct?, mapOpt, cell?,
      fuzzy_classification, adjNoFuzzy, calc_percent, rowTotal, colTotal,
      grandTotal, diagSum, Mval, pct_correct_row, pct_correct_col,
      pct_correct_overall, npDiv, npScale, emZ, statsZ, List.range_succ]
  have hz : grandTotal emZ = 0 := by decide
  have hm := all_zero_matrix_cells emZ [] statsZ hb hz
  exact ⟨hb, hz, hm.2.2.2.2.1, hm.2.2.2.2.2⟩

/-- C9: for an N×N count matrix with N ≥ 2, no declared fuzzy classes and
nonzero totals, the percent-fuzzy-correct is greater than or equal to the
percent-correct for each row, for each column, and overall, because each
class's ±1 adjacency window contains the class itself. -/
theorem fuzzy_ge_correct
    (M : CountMatrix) (stats : ErrorMatrixStats)
    (h : build_error_matrix M [] = some stats)
    (hn : 2 ≤ M.length)
    (_hsq : ∀ r ∈ M, r.length = M.length)
    (hrt : ∀ i, i < M.length → rowTotal M i ≠ 0)
    (hct : ∀ j, j < M.length → colTotal M j ≠ 0) :
    (∀ i, i < M.length → ∀ pc pf : ℚ,
      stats.pctCorrectRow[i]? = some pc →
      stats.pctFuzzyRow[i]? = some pf → pc ≤ pf) ∧
    (∀ j, j < M.length → ∀ pc pf : ℚ,
      stats.pctCorrectCol[j]? = some pc →
      stats.pctFuzzyCol[j]? = some pf → pc ≤ pf) ∧
    (∃ q : ℚ, stats.pctCorrectOverall = NpFloat.val q ∧
      q ≤ stats.pctFuzzyOverall) := by
  obtain ⟨hfr, hfc, hfo, hcc, hcr, hco⟩ := build_error_matrix_some h
  have hcl : ∀ i, fuzzy_classification [] M.length i = adjNoFuzzy M.length i :=
    fun i => by simp [fuzzy_classification]
  refine ⟨?_, ?_, ?_⟩
  · intro i hi pc pf hpc hpf
    rw [hcr, pct_correct_row_get hi] at hpc
    rw [pct_fuzzy_row_get hfr hi] at hpf
    injection hpc with hpc2
    injection hpf with hpf2
    subst hpc2
    subst hpf2
    have hle : Mval M i i ≤
        ((fuzzy_classification [] M.length i).map fun j => Mval M i j).sum := by
      rw [hcl i]
      exact List.le_sum_of_mem
        (List.mem_map_of_mem _ (mem_adjNoFuzzy_self M.length i))
    have hz' : (0 : ℚ) < (rowTotal M i : ℚ) := by
      exact_mod_cast Nat.pos_of_ne_zero (hrt i hi)
    unfold calc_percent
    rw [if_neg hz'.ne', if_neg hz'.ne']
    exact mul_le_mul_of_nonneg_right
      ((div_le_div_iff_of_pos_right hz').mpr (by exact_mod_cast hle)) (by norm_num)
  · intro j hj pc pf hpc hpf
    rw [hcc, pct_correct_col_get hj] at hpc
    rw [pct_fuzzy_col_get hfc hj] at hpf
    injection hpc with hpc2
    injection hpf with hpf2
    subst hpc2
    subst hpf2
    have hle : Mval M j j ≤
        ((fuzzy_classification [] M.length j).map fun i => Mval M i j).sum := by
      rw [hcl j]
      exact List.le_sum_of_mem
        (List.mem_map_of_mem _ (mem_adjNoFuzzy_self M.length j))
    have hz' : (0 : ℚ) < (colTotal M j : ℚ) := by
      exact_mod_cast Nat.pos_of_ne_zero (hct j hj)
    unfold calc_percent
    rw [if_neg hz'.ne', if_neg hz'.ne']
    exact mul_le_mul_of_nonneg_right
      ((div_le_div_iff_of_pos_right hz').mpr (by exact_mod_cast hle)) (by norm_num)
  · have htz : grandTotal M ≠ 0 := by
      intro h0
      exact hrt 0 (by omega)
        (Nat.le_zero.mp (h0 ▸ rowTotal_le_grandTotal M 0))
    have htz' : (0 : ℚ) < (grandTotal M : ℚ) := by
      exact_mod_cast Nat.pos_of_ne_zero htz
    refine ⟨(diagSum M : ℚ) / (grandTotal M : ℚ) * 100, ?_, ?_⟩
    · rw [hco]
      simp [pct_correct_overall, npDiv, npScale, htz'.ne']
    · have hdc : ((diagSum M : ℕ) : ℚ) =
          ((List.range M.length).map fun i => ((Mval M i i : ℕ) : ℚ)).sum := by
        unfold diagSum
        rw [Nat.cast_list_sum, List.map_map]
        rfl
      have hnum :
          ((List.range M.length).map fun i => ((Mval M i i : ℕ) : ℚ)).sum ≤
          ((List.range M.length).map fun i =>
            ((((fuzzy_classification [] M.length i).map fun j =>
              Mval M i j).sum : ℕ) : ℚ)).sum := by
        apply List.sum_le_sum
        intro i hi2
        apply Nat.cast_le.mpr
        rw [hcl i]
        exact List.le_sum_of_mem
          (List.mem_map_of_mem _ (mem_adjNoFuzzy_self M.length i))
      rw [pct_fuzzy_overall_eq hfo, hdc]
      unfold calc_percent
      rw [if_neg htz'.ne']
      exact mul_le_mul_of_nonneg_right
        ((div_le_div_iff_of_pos_right htz').mpr hnum) (by norm_num)

theorem fuzzy_ge_correct_witness :
    build_error_matrix emB [] = some statsB ∧
    statsB.pctCorrectRow[0]? = some (100 / 3 : ℚ) ∧
    statsB.pctFuzzyRow[0]? = some (100 : ℚ) ∧
    (100 / 3 : ℚ) ≤ 100 := by
  have hb : build_error_matrix emB [] = some statsB := by
    norm_num [build_error_matrix, pct_fuzzy_row?, pct_fuzzy_col?,
      pct_fuzzy_overall?, incorrect?, r_correct?, c_correct?, mapOpt, cell?,
      fuzzy_classification, adjNoFuzzy, calc_percent, rowTotal, colTotal,
      grandTotal, diagSum, Mval, pct_correct_row, pct_correct_col,
      pct_correct_overall, npDiv, npScale, emB, statsB, List.range_succ]
  have h1 : statsB.pctCorrectRow[0]? = some (100 / 3 : ℚ) := rfl
  have h2 : statsB.pctFuzzyRow[0]? = some (100 : ℚ) := rfl
  exact ⟨hb, h1, h2,
    (fuzzy_ge_correct emB statsB hb (by decide) (by decide) (by decide)
      (by decide)).1 0 (by decide) _ _ h1 h2⟩
